import Mathlib

/-!
Verification of the checkers rules-and-search engine
(`src/lib/checkers-logic.ts`).

The board is embedded as a function from playable coordinates to optional
pieces; all source loops over `0 ≤ row, col < 8` become folds over
`List.finRange 8` in the same row-major order.  Machine numbers are `ℤ`/`ℕ`
(no overflow is possible at these magnitudes); the JavaScript `±Infinity`
sentinels used by the alpha-beta search are embedded as `⊥`/`⊤` of
`WithBot (WithTop ℤ)`; the fractional arithmetic of `evaluateMove`
(distance from the board centre `(3.5, 3.5)`) is embedded in `ℚ`.
-/

/-- The two sides.  The source's `PieceType` is `'white' | 'black' | null`;
the `null` case only ever appears as an empty board cell or as the absent
result of `checkWinner`, so cells are `Option Piece` and winners
`Option Side` here. -/
inductive Side where
  | white : Side
  | black : Side
deriving DecidableEq, Repr

/-- A piece: its side and its king flag (source interface `Piece`). -/
structure Piece where
  type : Side
  isKing : Bool
deriving DecidableEq, Repr

/-- A board coordinate, row and column both in `[0, 8)`
(source interface `Position`; the source guards every access outside the
input coordinates with `isValidPosition`, so only in-range coordinates
ever denote squares). -/
structure Position where
  row : Fin 8
  col : Fin 8
deriving DecidableEq, Repr

/-- A move: origin, destination and the list of captured squares
(source interface `Move`; the optional `captured` field absent is embedded
as the empty list, which the source treats identically). -/
structure Move where
  fromPos : Position
  toPos : Position
  captured : List Position
deriving DecidableEq, Repr

/-- A board: an 8×8 grid of optional pieces (source type `Board`). -/
abbrev Board := Position → Option Piece

/-- `true` exactly when the move carries at least one captured square
(the source tests `move.captured && move.captured.length > 0`). -/
def Move.isCapture (m : Move) : Bool :=
  0 < m.captured.length

/-- All 64 squares in the source's row-major loop order. -/
def allPositions : List Position :=
  (List.finRange 8).flatMap (fun row => (List.finRange 8).map (fun col => ⟨row, col⟩))

/-- `createInitialBoard`: black men on the dark squares of rows 0–2,
white men on the dark squares of rows 5–7. -/
def createInitialBoard : Board := fun p =>
  if (p.row.val + p.col.val) % 2 = 1 then
    if p.row.val < 3 then some ⟨Side.black, false⟩
    else if 4 < p.row.val then some ⟨Side.white, false⟩
    else none
  else none

/-- `isValidPosition` combined with construction of the coordinate:
`some` exactly on `0 ≤ r < 8 ∧ 0 ≤ c < 8`. -/
def toPos? (r c : ℤ) : Option Position :=
  if h : 0 ≤ r ∧ r < 8 ∧ 0 ≤ c ∧ c < 8 then
    some ⟨⟨r.toNat, by omega⟩, ⟨c.toNat, by omega⟩⟩
  else none

/-- The diagonal directions the source pushes for a piece: the two
upward diagonals for white or kings, then the two downward diagonals for
black or kings, in source push order. -/
def directions (piece : Piece) : List (ℤ × ℤ) :=
  (if piece.type = Side.white ∨ piece.isKing = true then [(-1, -1), (-1, 1)] else []) ++
  (if piece.type = Side.black ∨ piece.isKing = true then [(1, -1), (1, 1)] else [])

/-- One direction's contribution to the `moves` array of `getValidMoves`:
a simple step to the adjacent diagonal square when it is on-board and
empty. -/
def stepSimple (board : Board) (position : Position) (d : ℤ × ℤ) : List Move :=
  match toPos? ((position.row.val : ℤ) + d.1) ((position.col.val : ℤ) + d.2) with
  | none => []
  | some np =>
    match board np with
    | none => [⟨position, np, []⟩]
    | some _ => []

/-- One direction's contribution to the `captures` array of
`getValidMoves`: a jump over an adjacent opposing piece onto an on-board
empty landing square, recording the jumped square. -/
def stepCapture (board : Board) (piece : Piece) (position : Position) (d : ℤ × ℤ) :
    List Move :=
  match toPos? ((position.row.val : ℤ) + d.1) ((position.col.val : ℤ) + d.2) with
  | none => []
  | some np =>
    match board np with
    | none => []
    | some q =>
      if q.type ≠ piece.type then
        match toPos? ((np.row.val : ℤ) + d.1) ((np.col.val : ℤ) + d.2) with
        | none => []
        | some jp =>
          match board jp with
          | none => [⟨position, jp, [np]⟩]
          | some _ => []
      else []

/-- The `moves` array accumulated by `getValidMoves` over all directions. -/
def rawMoves (board : Board) (position : Position) : List Move :=
  match board position with
  | none => []
  | some piece => (directions piece).flatMap (stepSimple board position)

/-- The `captures` array accumulated by `getValidMoves` over all
directions. -/
def rawCaptures (board : Board) (position : Position) : List Move :=
  match board position with
  | none => []
  | some piece => (directions piece).flatMap (stepCapture board piece position)

/-- `getValidMoves`: the per-piece move list, applying the local
forced-capture rule (`captures.length > 0 ? captures : moves`); empty when
the square is empty. -/
def getValidMoves (board : Board) (position : Position) : List Move :=
  match board position with
  | none => []
  | some _ =>
    if 0 < (rawCaptures board position).length then rawCaptures board position
    else rawMoves board position

/-- The side's raw candidate set: the concatenation, in row-major square
order, of `getValidMoves` over every square holding a piece of the given
side (the union the loop of `getAllValidMoves` accumulates before its
final forced-capture split). -/
def allMovesRaw (board : Board) (playerType : Side) : List Move :=
  allPositions.flatMap (fun pos =>
    match board pos with
    | some piece => if piece.type = playerType then getValidMoves board pos else []
    | none => [])

/-- `getAllValidMoves`: the side's legal moves, applying the global
forced-capture rule.  The source pushes each generated move onto either a
`captures` or a `moves` array in generation order, i.e. filters the raw
union by the capture test. -/
def getAllValidMoves (board : Board) (playerType : Side) : List Move :=
  let collected := allMovesRaw board playerType
  let captures := collected.filter Move.isCapture
  let moves := collected.filter (fun m => !m.isCapture)
  if 0 < captures.length then captures else moves

/-- `makeMove`: the source copies the board, then assigns
`to := piece`, `from := null`, each captured square `:= null`, and finally
(for a white piece arriving on row 0 or a black piece arriving on row 7)
`to := {piece with isKing: true}`.  A later assignment wins over an
earlier one, so the embedded board reads the promotion slot first, then
captured squares, then the origin, then the destination. -/
def makeMove (board : Board) (move : Move) : Board :=
  match board move.fromPos with
  | none => board
  | some piece =>
    if (piece.type = Side.white ∧ move.toPos.row = (0 : Fin 8)) ∨
        (piece.type = Side.black ∧ move.toPos.row = (7 : Fin 8)) then
      fun p =>
        if p = move.toPos then some ⟨piece.type, true⟩
        else if p ∈ move.captured then none
        else if p = move.fromPos then none
        else board p
    else
      fun p =>
        if p ∈ move.captured then none
        else if p = move.fromPos then none
        else if p = move.toPos then some piece
        else board p

/-- The piece count of one side (the `whiteCount`/`blackCount` loop of
`checkWinner`). -/
def countPieces (board : Board) (s : Side) : ℕ :=
  allPositions.countP (fun p =>
    match board p with
    | some piece => piece.type = s
    | none => false)

/-- `checkWinner`: a side with no pieces loses; otherwise a side with no
legal moves loses to a side that still has some; otherwise no winner. -/
def checkWinner (board : Board) : Option Side :=
  let whiteCount := countPieces board Side.white
  let blackCount := countPieces board Side.black
  if whiteCount = 0 then some Side.black
  else if blackCount = 0 then some Side.white
  else
    let whiteMoves := getAllValidMoves board Side.white
    let blackMoves := getAllValidMoves board Side.black
    if whiteMoves.length = 0 ∧ 0 < blackMoves.length then some Side.black
    else if blackMoves.length = 0 ∧ 0 < whiteMoves.length then some Side.white
    else none

/-- `evaluateMove`: +100 per captured piece, +50 on arrival at row 7,
`(7 − d) * 5` where `d` is the Manhattan distance of the destination from
the centre `(3.5, 3.5)`, and −10 on the leftmost or rightmost file.
The `board` argument is accepted and ignored, as in the source. -/
def evaluateMove (_board : Board) (move : Move) : ℚ :=
  let captureBonus : ℚ := (move.captured.length : ℚ) * 100
  let kingBonus : ℚ := if move.toPos.row = (7 : Fin 8) then 50 else 0
  let centerDistance : ℚ :=
    |(move.toPos.col.val : ℚ) - 7/2| + |(move.toPos.row.val : ℚ) - 7/2|
  let centerBonus : ℚ := (7 - centerDistance) * 5
  let edgePenalty : ℚ :=
    if move.toPos.col = (0 : Fin 8) ∨ move.toPos.col = (7 : Fin 8) then 10 else 0
  captureBonus + kingBonus + centerBonus - edgePenalty

/-- `evaluateBoard`: per piece, value 15 for a king else 10 plus an
advancement bonus (`row` for black men, `7 − row` for white men), summed
positively for black and negatively for white. -/
def evaluateBoard (board : Board) : ℤ :=
  (allPositions.map (fun p =>
    match board p with
    | none => 0
    | some piece =>
      let pieceValue : ℤ := if piece.isKing then 15 else 10
      let positionBonus : ℤ :=
        if piece.isKing then 0
        else if piece.type = Side.black then (p.row.val : ℤ) else 7 - (p.row.val : ℤ)
      if piece.type = Side.black then pieceValue + positionBonus
      else -(pieceValue + positionBonus))).sum

/-- Scores extended with the JavaScript `±Infinity` sentinels used by the
alpha-beta window: `⊥` is `-Infinity` and `⊤` is `+Infinity`. -/
abbrev EInt := WithBot (WithTop ℤ)

/-- Embeds a finite score into the extended score order. -/
def toE (z : ℤ) : EInt := ((z : WithTop ℤ) : EInt)

/-- The maximizing loop of `minimax`: folds over the move list keeping
`maxEval` and `alpha`, breaking as soon as `beta ≤ alpha`.  The recursive
evaluation of a child board is abstracted as `ev`. -/
def abMaxLoop (ev : Board → EInt → EInt → EInt) (board : Board) (beta : EInt) :
    List Move → EInt → EInt → EInt
  | [], maxEval, _alpha => maxEval
  | mv :: rest, maxEval, alpha =>
    let evalScore := ev (makeMove board mv) alpha beta
    let maxEval' := max maxEval evalScore
    let alpha' := max alpha evalScore
    if beta ≤ alpha' then maxEval' else abMaxLoop ev board beta rest maxEval' alpha'

/-- The minimizing loop of `minimax`: folds keeping `minEval` and `beta`,
breaking as soon as `beta ≤ alpha`. -/
def abMinLoop (ev : Board → EInt → EInt → EInt) (board : Board) (alpha : EInt) :
    List Move → EInt → EInt → EInt
  | [], minEval, _beta => minEval
  | mv :: rest, minEval, beta =>
    let evalScore := ev (makeMove board mv) alpha beta
    let minEval' := min minEval evalScore
    let beta' := min beta evalScore
    if beta' ≤ alpha then minEval' else abMinLoop ev board alpha rest minEval' beta'

/-- `minimax` with alpha-beta pruning: a black win is `1000` and a white
win `-1000` (checked before depth exhaustion), depth 0 yields the static
board score, a stalemated acting side loses, and otherwise the two loops
above fold over the acting side's legal moves. -/
def minimax (board : Board) (depth : ℕ) (alpha beta : EInt) (isMaximizing : Bool) :
    EInt :=
  match checkWinner board with
  | some Side.black => toE 1000
  | some Side.white => toE (-1000)
  | none =>
    match depth with
    | 0 => toE (evaluateBoard board)
    | d + 1 =>
      let currentPlayer := if isMaximizing then Side.black else Side.white
      let moves := getAllValidMoves board currentPlayer
      if moves.length = 0 then (if isMaximizing then toE (-1000) else toE 1000)
      else if isMaximizing then
        abMaxLoop (fun b a bt => minimax b d a bt false) board beta moves ⊥ alpha
      else
        abMinLoop (fun b a bt => minimax b d a bt true) board alpha moves ⊤ beta

/-- The maximizing fold of the unpruned reference search: plain running
maximum over the children, starting from `-Infinity`. -/
def npMaxLoop (ev : Board → EInt) (board : Board) : List Move → EInt → EInt
  | [], maxEval => maxEval
  | mv :: rest, maxEval => npMaxLoop ev board rest (max maxEval (ev (makeMove board mv)))

/-- The minimizing fold of the unpruned reference search. -/
def npMinLoop (ev : Board → EInt) (board : Board) : List Move → EInt → EInt
  | [], minEval => minEval
  | mv :: rest, minEval => npMinLoop ev board rest (min minEval (ev (makeMove board mv)))

/-- Modelled from the spec: the exhaustive minimax without alpha-beta
pruning that the claim compares `minimax` against — same move generator,
same applicator (`makeMove`), same terminal check (`checkWinner`), same
leaf evaluation (`evaluateBoard`), same depth accounting, no pruning. -/
def minimaxNoPrune (board : Board) (depth : ℕ) (isMaximizing : Bool) : EInt :=
  match checkWinner board with
  | some Side.black => toE 1000
  | some Side.white => toE (-1000)
  | none =>
    match depth with
    | 0 => toE (evaluateBoard board)
    | d + 1 =>
      let currentPlayer := if isMaximizing then Side.black else Side.white
      let moves := getAllValidMoves board currentPlayer
      if moves.length = 0 then (if isMaximizing then toE (-1000) else toE 1000)
      else if isMaximizing then
        npMaxLoop (fun b => minimaxNoPrune b d false) board moves ⊥
      else
        npMinLoop (fun b => minimaxNoPrune b d true) board moves ⊤

/-- `getRandomMove`: picks an element of the list; the ambient
`Math.random()` draw is embedded as an externally supplied natural `r`,
reduced to an in-range index. -/
def getRandomMove (r : ℕ) (moves : List Move) : Option Move :=
  moves.get? (r % moves.length)

/-- `getBasicMove`: prefer a random capture, else a random move onto
row 7, else any random move. -/
def getBasicMove (rng : ℕ → ℕ) (moves : List Move) : Option Move :=
  let captures := moves.filter Move.isCapture
  if 0 < captures.length then captures.get? (rng 0 % captures.length)
  else
    let kingMoves := moves.filter (fun m => m.toPos.row = (7 : Fin 8))
    if 0 < kingMoves.length then kingMoves.get? (rng 1 % kingMoves.length)
    else getRandomMove (rng 2) moves

/-- `getIntermediateMove`: score every move, sort descending by score
(JavaScript `sort` is stable; the comparator `b.score - a.score` keeps `a`
before `b` exactly when `b.score ≤ a.score`), and pick randomly among the
top three. -/
def getIntermediateMove (r : ℕ) (board : Board) (moves : List Move) : Option Move :=
  let scoredMoves := moves.map (fun move => (move, evaluateMove board move))
  let sorted := scoredMoves.mergeSort (fun a b => b.2 ≤ a.2)
  let topMoves := sorted.take (min 3 scoredMoves.length)
  (topMoves.get? (r % topMoves.length)).map Prod.fst

/-- The loop of `getAdvancedMove`: keeps the move with the strictly best
one-ply-ahead search score, first move winning ties. -/
def advLoop (board : Board) (depth : ℕ) : List Move → Move → EInt → Move
  | [], bestMove, _ => bestMove
  | mv :: rest, bestMove, bestScore =>
    let score := minimax (makeMove board mv) (depth - 1) ⊥ ⊤ false
    if bestScore < score then advLoop board depth rest mv score
    else advLoop board depth rest bestMove bestScore

/-- `getAdvancedMove`: depth-4 search at rating ≥ 1600, else depth 3;
`bestMove` starts at `moves[0]` and `bestScore` at `-Infinity`. -/
def getAdvancedMove (board : Board) (moves : List Move) (difficulty : ℤ) :
    Option Move :=
  let depth : ℕ := if 1600 ≤ difficulty then 4 else 3
  match moves with
  | [] => none
  | m0 :: _ => some (advLoop board depth moves m0 ⊥)

/-- `getBotMove`: black's legal moves, absent when there are none,
otherwise dispatched to a tier by the difficulty rating.  All ambient
`Math.random()` draws are supplied through `rng`. -/
def getBotMove (rng : ℕ → ℕ) (board : Board) (difficulty : ℤ) : Option Move :=
  let moves := getAllValidMoves board Side.black
  if moves.length = 0 then none
  else if difficulty < 400 then getRandomMove (rng 0) moves
  else if difficulty < 800 then getBasicMove rng moves
  else if difficulty < 1200 then getIntermediateMove (rng 0) board moves
  else getAdvancedMove board moves difficulty

/-- Decidable well-formedness of one initial-board cell: any piece is
unkinged, sits on a dark square, and is black only on rows 0–2 and white
only on rows 5–7. -/
def cellOK : Option Piece → Fin 8 → Fin 8 → Bool
  | none, _, _ => true
  | some piece, r, c =>
    !piece.isKing && decide ((r.val + c.val) % 2 = 1) &&
      (match piece.type with
       | Side.black => decide (r.val ≤ 2)
       | Side.white => decide (5 ≤ r.val))

/-- C6: `createInitialBoard` has exactly 12 black and 12 white pieces,
none of them kings, every piece on a square with `(row + col)` odd, black
only on rows 0–2, white only on rows 5–7, and rows 3 and 4 empty. -/
theorem initial_board_setup :
    countPieces createInitialBoard Side.black = 12 ∧
    countPieces createInitialBoard Side.white = 12 ∧
    (∀ r c : Fin 8, cellOK (createInitialBoard ⟨r, c⟩) r c = true) ∧
    (∀ c : Fin 8, createInitialBoard ⟨3, c⟩ = none ∧ createInitialBoard ⟨4, c⟩ = none) :=
  ⟨by decide, by decide, by decide, by decide⟩

/-- C10: on a board where both sides have zero pieces, `checkWinner`
returns black (the white piece count is tested first), not the absent
result. -/
theorem checkWinner_both_empty (b : Board)
    (hw : countPieces b Side.white = 0) (_hb : countPieces b Side.black = 0) :
    checkWinner b = some Side.black := by
  unfold checkWinner
  simp [hw]

/-- C10 witness: the completely empty board yields a black win. -/
theorem checkWinner_both_empty_w : checkWinner (fun _ => none) = some Side.black :=
  checkWinner_both_empty (fun _ => none) (by decide) (by decide)

/-- The per-move score as claim C7 words it: the +50 far-rank bonus paid
for the moving piece's own far rank — row 7 when the origin piece is
black, row 0 when it is white. -/
def evaluateMoveClaimed (board : Board) (move : Move) : ℚ :=
  let claimedFarRank : Bool :=
    match board move.fromPos with
    | some piece =>
      decide ((piece.type = Side.black ∧ move.toPos.row = (7 : Fin 8)) ∨
        (piece.type = Side.white ∧ move.toPos.row = (0 : Fin 8)))
    | none => false
  (move.captured.length : ℚ) * 100 + (if claimedFarRank then 50 else 0) +
    (7 - (|(move.toPos.col.val : ℚ) - 7/2| + |(move.toPos.row.val : ℚ) - 7/2|)) * 5 -
    (if move.toPos.col = (0 : Fin 8) ∨ move.toPos.col = (7 : Fin 8) then 10 else 0)

/-- A board holding a single white man at (1, 2). -/
def bProm : Board := fun p => if p = ⟨1, 2⟩ then some ⟨Side.white, false⟩ else none

/-- The white man's step from (1, 2) onto its far rank square (0, 1). -/
def mProm : Move := ⟨⟨1, 2⟩, ⟨0, 1⟩, []⟩

/-- C7 counterexample: for the white move onto row 0, the claimed formula
(side-dependent far-rank bonus) gives 55, but `evaluateMove` gives 5 —
the code pays the +50 bonus only on arrival at row 7, whatever the side. -/
theorem evaluateMove_cex :
    evaluateMoveClaimed bProm mProm = 55 ∧ evaluateMove bProm mProm = 5 := by
  have h1 : |(1 : ℚ) - 7/2| = 5/2 := by
    rw [abs_of_nonpos (by norm_num)]
    norm_num
  have h0 : |(0 : ℚ) - 7/2| = 7/2 := by
    rw [abs_of_nonpos (by norm_num)]
    norm_num
  have h52 : |(5 : ℚ)/2| = 5/2 := abs_of_nonneg (by norm_num)
  have h72 : |(7 : ℚ)/2| = 7/2 := abs_of_nonneg (by norm_num)
  constructor
  · show evaluateMoveClaimed bProm mProm = 55
    simp only [evaluateMoveClaimed, bProm, mProm]
    norm_num [h1, h0]
    rw [if_neg (by decide)]
    norm_num [h52, h72]
  · show evaluateMove bProm mProm = 5
    simp only [evaluateMove, mProm]
    norm_num [h1, h0]
    rw [if_neg (by decide), if_neg (by decide)]
    norm_num [h52, h72]

/-- C7 amended: `evaluateMove` returns 100 per captured square, +50
exactly when the destination row is 7 (regardless of the moving side),
plus 5 times (7 minus the Manhattan distance of the destination from
(3.5, 3.5)), minus 10 on files 0 and 7; and it ignores its board
argument. -/
theorem evaluateMove_formula (b b' : Board) (m : Move) :
    evaluateMove b m =
      (m.captured.length : ℚ) * 100 +
      (if m.toPos.row = (7 : Fin 8) then 50 else 0) +
      (7 - (|(m.toPos.col.val : ℚ) - 7/2| + |(m.toPos.row.val : ℚ) - 7/2|)) * 5 -
      (if m.toPos.col = (0 : Fin 8) ∨ m.toPos.col = (7 : Fin 8) then 10 else 0) ∧
    evaluateMove b m = evaluateMove b' m :=
  ⟨rfl, rfl⟩

/-- C5: `checkWinner` gives the opposite side when one side is out of
pieces, the side that still has moves when both have pieces but exactly
one side has legal moves, and no winner otherwise; it takes no
whose-turn-is-it input at all. -/
theorem checkWinner_cases (b : Board) :
    (countPieces b Side.white = 0 → countPieces b Side.black ≠ 0 →
      checkWinner b = some Side.black) ∧
    (countPieces b Side.black = 0 → countPieces b Side.white ≠ 0 →
      checkWinner b = some Side.white) ∧
    (countPieces b Side.white ≠ 0 → countPieces b Side.black ≠ 0 →
      getAllValidMoves b Side.white = [] → getAllValidMoves b Side.black ≠ [] →
      checkWinner b = some Side.black) ∧
    (countPieces b Side.white ≠ 0 → countPieces b Side.black ≠ 0 →
      getAllValidMoves b Side.black = [] → getAllValidMoves b Side.white ≠ [] →
      checkWinner b = some Side.white) ∧
    (countPieces b Side.white ≠ 0 → countPieces b Side.black ≠ 0 →
      (getAllValidMoves b Side.white = [] ↔ getAllValidMoves b Side.black = []) →
      checkWinner b = none) := by
  refine ⟨?_, ?_, ?_, ?_, ?_⟩
  · intro h1 _
    simp only [checkWinner]
    rw [if_pos h1]
  · intro h1 h2
    simp only [checkWinner]
    rw [if_neg h2, if_pos h1]
  · intro h1 h2 h3 h4
    simp only [checkWinner]
    rw [if_neg h1, if_neg h2,
      if_pos ⟨by simp [h3], List.length_pos.mpr h4⟩]
  · intro h1 h2 h3 h4
    simp only [checkWinner]
    rw [if_neg h1, if_neg h2]
    have hc1 : ¬(List.length (getAllValidMoves b Side.white) = 0 ∧
        0 < List.length (getAllValidMoves b Side.black)) := by
      rintro ⟨hw0, _⟩
      exact h4 (List.length_eq_zero.mp hw0)
    rw [if_neg hc1, if_pos ⟨by simp [h3], List.length_pos.mpr h4⟩]
  · intro h1 h2 h3
    simp only [checkWinner]
    rw [if_neg h1, if_neg h2]
    split_ifs with hc1 hc2
    · exfalso
      have hb := h3.mp (List.length_eq_zero.mp hc1.1)
      rw [hb] at hc1
      simp at hc1
    · exfalso
      have hw := h3.mpr (List.length_eq_zero.mp hc2.1)
      rw [hw] at hc2
      simp at hc2
    · rfl

/-- C5 witness: on the initial board both sides have pieces and moves, so
there is no winner. -/
theorem checkWinner_cases_w : checkWinner createInitialBoard = none :=
  (checkWinner_cases createInitialBoard).2.2.2.2 (by decide) (by decide) (by decide)

/-- A board holding a single black man at (0, 1). -/
def bSelf : Board := fun p => if p = ⟨0, 1⟩ then some ⟨Side.black, false⟩ else none

/-- A degenerate move whose destination equals its origin. -/
def mSelf : Move := ⟨⟨0, 1⟩, ⟨0, 1⟩, []⟩

/-- C3 counterexample: the origin of `mSelf` holds a piece, yet after
`makeMove` the destination square is empty (the `from := null` assignment
lands after the `to := piece` one on the same cell), so the returned board
does not have the moved piece at the destination as the claim states for
every move. -/
theorem makeMove_cex :
    bSelf ⟨0, 1⟩ = some ⟨Side.black, false⟩ ∧
    makeMove bSelf mSelf mSelf.toPos = none := by
  constructor <;> decide

/-- C3 amended: for a move whose destination is distinct from its origin
and not among its captured squares, `makeMove` puts the moving piece
(possibly kinged) on the destination, empties the origin and every
captured square, and leaves every other square unchanged.  (The
no-mutation half of the claim is inherent here: the source builds a fresh
copied grid and never writes through its argument.) -/
theorem makeMove_effect (b : Board) (m : Move) (piece : Piece)
    (hp : b m.fromPos = some piece) (hne : m.toPos ≠ m.fromPos)
    (hcap : m.toPos ∉ m.captured) :
    (makeMove b m m.toPos = some piece ∨
      makeMove b m m.toPos = some ⟨piece.type, true⟩) ∧
    makeMove b m m.fromPos = none ∧
    (∀ p ∈ m.captured, makeMove b m p = none) ∧
    (∀ p : Position, p ≠ m.fromPos → p ≠ m.toPos → p ∉ m.captured →
      makeMove b m p = b p) := by
  simp only [makeMove, hp]
  split
  all_goals beta_reduce
  · refine ⟨Or.inr (by simp), ?_, ?_, ?_⟩
    · rw [if_neg (fun h => hne (h.symm))]
      by_cases hf : m.fromPos ∈ m.captured
      · rw [if_pos hf]
      · rw [if_neg hf, if_pos rfl]
    · intro p hpc
      rw [if_neg (fun h : p = m.toPos => hcap (h ▸ hpc)), if_pos hpc]
    · intro p h1 h2 h3
      rw [if_neg h2, if_neg h3, if_neg h1]
  · refine ⟨Or.inl ?_, ?_, ?_, ?_⟩
    · rw [if_neg hcap, if_neg hne, if_pos rfl]
    · by_cases hf : m.fromPos ∈ m.captured
      · rw [if_pos hf]
      · rw [if_neg hf, if_pos rfl]
    · intro p hpc
      rw [if_pos hpc]
    · intro p h1 h2 h3
      rw [if_neg h3, if_neg h1, if_neg h2]

/-- C3 witness: the lone white man stepping from (1, 2) to (0, 1) ends up
on (0, 1) (kinged there, as row 0 promotes white). -/
theorem makeMove_effect_w :
    makeMove bProm mProm mProm.toPos = some ⟨Side.white, false⟩ ∨
    makeMove bProm mProm mProm.toPos = some ⟨Side.white, true⟩ :=
  (makeMove_effect bProm mProm ⟨Side.white, false⟩ (by decide) (by decide)
    (by decide)).1

/-- A board holding a single black man at (1, 2). -/
def bDeg : Board := fun p => if p = ⟨1, 2⟩ then some ⟨Side.black, false⟩ else none

/-- A degenerate move whose destination is listed among its own captured
squares. -/
def mDeg : Move := ⟨⟨1, 2⟩, ⟨3, 4⟩, [⟨3, 4⟩]⟩

/-- C4 counterexample: the origin holds a non-king black piece and the
destination row 3 is not its far rank, so the claim says the piece keeps
its king flag in the returned board; but the destination square of the
returned board is empty (the capture clearing overwrites the arrival), so
no piece with the unchanged flag is there. -/
theorem makeMove_promotion_cex :
    bDeg ⟨1, 2⟩ = some ⟨Side.black, false⟩ ∧
    mDeg.toPos.row ≠ (7 : Fin 8) ∧ mDeg.toPos.row ≠ (0 : Fin 8) ∧
    makeMove bDeg mDeg mDeg.toPos = none := by
  refine ⟨by decide, by decide, by decide, by decide⟩

/-- C4 amended: when the origin holds a piece, a non-king white piece
arriving on row 0 or a non-king black piece arriving on row 7 is a king
on the destination square of the returned board; and — provided the
destination is distinct from the origin and not a captured square — a
piece that is already a king, or whose destination is not its far rank,
sits on the destination with its king flag unchanged. -/
theorem makeMove_promotion (b : Board) (m : Move) (piece : Piece)
    (hp : b m.fromPos = some piece) :
    (piece.isKing = false →
      (piece.type = Side.white ∧ m.toPos.row = (0 : Fin 8)) ∨
        (piece.type = Side.black ∧ m.toPos.row = (7 : Fin 8)) →
      makeMove b m m.toPos = some ⟨piece.type, true⟩) ∧
    (m.toPos ∉ m.captured → m.toPos ≠ m.fromPos →
      piece.isKing = true ∨
        ¬((piece.type = Side.white ∧ m.toPos.row = (0 : Fin 8)) ∨
          (piece.type = Side.black ∧ m.toPos.row = (7 : Fin 8))) →
      ∃ q : Piece, makeMove b m m.toPos = some q ∧ q.isKing = piece.isKing) := by
  simp only [makeMove, hp]
  constructor
  · intro _ hfar
    rw [if_pos hfar]
    rw [if_pos rfl]
  · intro hcap hne hflag
    split
    all_goals beta_reduce
    · refine ⟨⟨piece.type, true⟩, by rw [if_pos rfl], ?_⟩
      rcases hflag with hk | hno
      · exact hk.symm
      · next hfar => exact absurd hfar hno
    · refine ⟨piece, ?_, rfl⟩
      rw [if_neg hcap, if_neg hne, if_pos rfl]

/-- C4 witness: the lone non-king white man moving from (1, 2) to (0, 1)
is a king on (0, 1) afterwards. -/
theorem makeMove_promotion_w :
    makeMove bProm mProm mProm.toPos = some ⟨Side.white, true⟩ :=
  (makeMove_promotion bProm mProm ⟨Side.white, false⟩ (by decide)).1 rfl
    (by decide)

/-- Positions form a finite type (they are pairs of `Fin 8`). -/
def posEquiv : Position ≃ Fin 8 × Fin 8 where
  toFun p := (p.row, p.col)
  invFun q := ⟨q.1, q.2⟩
  left_inv _ := rfl
  right_inv _ := rfl

instance : Fintype Position := Fintype.ofEquiv (Fin 8 × Fin 8) posEquiv.symm

/-- Every position occurs in the row-major traversal. -/
theorem mem_allPositions (p : Position) : p ∈ allPositions := by
  simp only [allPositions, List.mem_flatMap, List.mem_map]
  exact ⟨p.row, List.mem_finRange _, p.col, List.mem_finRange _, rfl⟩

/-- Every entry of the `captures` array of `getValidMoves` is a capture
move. -/
theorem mem_rawCaptures_isCapture {b : Board} {pos : Position} {m : Move}
    (h : m ∈ rawCaptures b pos) : m.isCapture = true := by
  rcases hb : b pos with _ | piece
  · rw [rawCaptures, hb] at h
    exact absurd h (List.not_mem_nil m)
  · rw [rawCaptures, hb] at h
    rcases List.mem_flatMap.mp h with ⟨d, _, hd⟩
    unfold stepCapture at hd
    rcases hp : toPos? ((pos.row.val : ℤ) + d.1) ((pos.col.val : ℤ) + d.2) with _ | np
    all_goals simp only [hp, List.mem_nil_iff] at hd
    rcases hq : b np with _ | q
    all_goals simp only [hq, List.mem_nil_iff] at hd
    split at hd
    · rcases hj : toPos? ((np.row.val : ℤ) + d.1) ((np.col.val : ℤ) + d.2) with _ | jp
      all_goals simp only [hj, List.mem_nil_iff] at hd
      rcases hr : b jp with _ | r
      all_goals simp only [hr, List.mem_nil_iff] at hd
      simp only [List.mem_singleton] at hd
      rw [hd]
      rfl
    · exact absurd hd (List.not_mem_nil m)

/-- Every entry of the `moves` array of `getValidMoves` is a simple
(non-capture) move. -/
theorem mem_rawMoves_not_isCapture {b : Board} {pos : Position} {m : Move}
    (h : m ∈ rawMoves b pos) : m.isCapture = false := by
  rcases hb : b pos with _ | piece
  · rw [rawMoves, hb] at h
    exact absurd h (List.not_mem_nil m)
  · rw [rawMoves, hb] at h
    rcases List.mem_flatMap.mp h with ⟨d, _, hd⟩
    unfold stepSimple at hd
    rcases hp : toPos? ((pos.row.val : ℤ) + d.1) ((pos.col.val : ℤ) + d.2) with _ | np
    all_goals simp only [hp, List.mem_nil_iff] at hd
    rcases hq : b np with _ | q
    all_goals simp only [hq, List.mem_nil_iff] at hd
    simp only [List.mem_singleton] at hd
    rw [hd]
    rfl

/-- A move of the side-wide raw candidate set comes from `getValidMoves`
at some square. -/
theorem mem_allMovesRaw {b : Board} {s : Side} {m : Move}
    (h : m ∈ allMovesRaw b s) : ∃ pos, m ∈ getValidMoves b pos := by
  rcases List.mem_flatMap.mp h with ⟨pos, _, hm⟩
  refine ⟨pos, ?_⟩
  rcases hb : b pos with _ | piece
  · rw [hb] at hm
    exact absurd hm (List.not_mem_nil m)
  · rw [hb] at hm
    simp only at hm
    split at hm
    · exact hm
    · exact absurd hm (List.not_mem_nil m)

/-- A square's `getValidMoves` for a piece of side `s` is contained in
the side-wide raw candidate set. -/
theorem getValidMoves_subset_allMovesRaw {b : Board} {s : Side} {pos : Position}
    {piece : Piece} (hb : b pos = some piece) (hs : piece.type = s) {m : Move}
    (hm : m ∈ getValidMoves b pos) : m ∈ allMovesRaw b s := by
  refine List.mem_flatMap.mpr ⟨pos, mem_allPositions pos, ?_⟩
  rw [hb]
  simp only
  rw [if_pos hs]
  exact hm

/-- The final move list is drawn from the raw candidate set. -/
theorem getAllValidMoves_subset {b : Board} {s : Side} {m : Move}
    (h : m ∈ getAllValidMoves b s) : m ∈ allMovesRaw b s := by
  simp only [getAllValidMoves] at h
  split at h
  · exact (List.mem_filter.mp h).1
  · exact (List.mem_filter.mp h).1

/-- The simple moves of all of a side's pieces: the `moves` arrays of
`getValidMoves`, concatenated square by square in row-major order. -/
def allSimpleRaw (board : Board) (playerType : Side) : List Move :=
  allPositions.flatMap (fun pos =>
    match board pos with
    | some piece => if piece.type = playerType then rawMoves board pos else []
    | none => [])

/-- C1: the global forced-capture rule of `getAllValidMoves` — if the
union of the per-piece move sets contains a capture, the result contains
only capture moves; otherwise the result is exactly the simple moves of
all of the side's pieces. -/
theorem getAllValidMoves_forced_capture (b : Board) (s : Side) :
    ((∃ m ∈ allMovesRaw b s, m.isCapture = true) →
      ∀ m ∈ getAllValidMoves b s, m.isCapture = true) ∧
    ((∀ m ∈ allMovesRaw b s, m.isCapture = false) →
      getAllValidMoves b s = allSimpleRaw b s) := by
  constructor
  · rintro ⟨m0, hm0, hc0⟩ m hm
    have hpos : 0 < ((allMovesRaw b s).filter Move.isCapture).length :=
      List.length_pos.mpr (List.ne_nil_of_mem (List.mem_filter.mpr ⟨hm0, hc0⟩))
    simp only [getAllValidMoves] at hm
    rw [if_pos hpos] at hm
    exact (List.mem_filter.mp hm).2
  · intro hall
    have hnil : (allMovesRaw b s).filter Move.isCapture = [] :=
      List.filter_eq_nil_iff.mpr (fun m hm => by simp [hall m hm])
    have hself : (allMovesRaw b s).filter (fun m => !m.isCapture) = allMovesRaw b s :=
      List.filter_eq_self.mpr (fun m hm => by simp [hall m hm])
    simp only [getAllValidMoves]
    rw [if_neg (by simp [hnil]), hself]
    refine List.flatMap_congr (fun pos _ => ?_)
    rcases hb : b pos with _ | piece
    · rfl
    · simp only
      by_cases hs : piece.type = s
      · rw [if_pos hs, if_pos hs]
        have hcap : ¬0 < (rawCaptures b pos).length := by
          intro hlen
        -- a nonempty per-piece capture list would put a capture move in
        -- the raw union, contradicting `hall`
          rcases List.length_pos.mp hlen with hne
          rcases List.exists_mem_of_ne_nil _ hne with ⟨mc, hmc⟩
          have hmem : mc ∈ getValidMoves b pos := by
            rw [getValidMoves, hb]
            simp only
            rw [if_pos hlen]
            exact hmc
          have := hall mc (getValidMoves_subset_allMovesRaw hb hs hmem)
          rw [mem_rawCaptures_isCapture hmc] at this
          exact Bool.true_eq_false.mp this
        rw [getValidMoves, hb]
        simp only
        rw [if_neg hcap]
      · rw [if_neg hs, if_neg hs]

/-- C1 witness: on the initial board black has no capture anywhere, so the
side-wide move list is exactly the concatenated simple moves. -/
theorem getAllValidMoves_forced_capture_w :
    getAllValidMoves createInitialBoard Side.black =
      allSimpleRaw createInitialBoard Side.black :=
  (getAllValidMoves_forced_capture createInitialBoard Side.black).2 (by decide)

/-- Inverting the guarded coordinate constructor: a produced square has
exactly the requested coordinates. -/
theorem toPos?_eq_some {r c : ℤ} {p : Position} (h : toPos? r c = some p) :
    (p.row.val : ℤ) = r ∧ (p.col.val : ℤ) = c := by
  unfold toPos? at h
  split at h
  · injection h with h
    subst h
    constructor <;> dsimp <;> omega
  · exact absurd h (by simp)

/-- The direction list only ever holds the four unit diagonals. -/
theorem mem_directions {piece : Piece} {d : ℤ × ℤ} (h : d ∈ directions piece) :
    d = (-1, -1) ∨ d = (-1, 1) ∨ d = (1, -1) ∨ d = (1, 1) := by
  unfold directions at h
  rcases List.mem_append.mp h with h | h
  · split at h
    · simp only [List.mem_cons, List.mem_singleton] at h
      tauto
    · exact absurd h (List.not_mem_nil d)
  · split at h
    · simp only [List.mem_cons, List.mem_singleton] at h
      tauto
    · exact absurd h (List.not_mem_nil d)

/-- A capture in the `captures` array starts at the queried square and
lands two diagonal steps away, preserving the square colour. -/
theorem rawCaptures_parity {b : Board} {pos : Position} {m : Move}
    (h : m ∈ rawCaptures b pos) :
    m.fromPos = pos ∧
    (m.toPos.row.val + m.toPos.col.val) % 2 = (pos.row.val + pos.col.val) % 2 := by
  rcases hb : b pos with _ | piece
  · rw [rawCaptures, hb] at h
    exact absurd h (List.not_mem_nil m)
  · rw [rawCaptures, hb] at h
    rcases List.mem_flatMap.mp h with ⟨d, hdm, hd⟩
    unfold stepCapture at hd
    rcases hp : toPos? ((pos.row.val : ℤ) + d.1) ((pos.col.val : ℤ) + d.2) with _ | np
    all_goals simp only [hp, List.mem_nil_iff] at hd
    rcases hq : b np with _ | q
    all_goals simp only [hq, List.mem_nil_iff] at hd
    split at hd
    · rcases hj : toPos? ((np.row.val : ℤ) + d.1) ((np.col.val : ℤ) + d.2) with _ | jp
      all_goals simp only [hj, List.mem_nil_iff] at hd
      rcases hr : b jp with _ | q2
      all_goals simp only [hr, List.mem_nil_iff] at hd
      simp only [List.mem_singleton] at hd
      subst hd
      refine ⟨rfl, ?_⟩
      obtain ⟨hnr, hnc⟩ := toPos?_eq_some hp
      obtain ⟨hjr, hjc⟩ := toPos?_eq_some hj
      rcases mem_directions hdm with h4 | h4 | h4 | h4 <;> subst h4 <;>
        dsimp at hnr hnc hjr hjc ⊢ <;> omega
    · exact absurd hd (List.not_mem_nil m)

/-- A step in the `moves` array starts at the queried square and lands one
diagonal step away, preserving the square colour. -/
theorem rawMoves_parity {b : Board} {pos : Position} {m : Move}
    (h : m ∈ rawMoves b pos) :
    m.fromPos = pos ∧
    (m.toPos.row.val + m.toPos.col.val) % 2 = (pos.row.val + pos.col.val) % 2 := by
  rcases hb : b pos with _ | piece
  · rw [rawMoves, hb] at h
    exact absurd h (List.not_mem_nil m)
  · rw [rawMoves, hb] at h
    rcases List.mem_flatMap.mp h with ⟨d, hdm, hd⟩
    unfold stepSimple at hd
    rcases hp : toPos? ((pos.row.val : ℤ) + d.1) ((pos.col.val : ℤ) + d.2) with _ | np
    all_goals simp only [hp, List.mem_nil_iff] at hd
    rcases hq : b np with _ | q
    all_goals simp only [hq, List.mem_nil_iff] at hd
    simp only [List.mem_singleton] at hd
    subst hd
    refine ⟨rfl, ?_⟩
    obtain ⟨hnr, hnc⟩ := toPos?_eq_some hp
    rcases mem_directions hdm with h4 | h4 | h4 | h4 <;> subst h4 <;>
      dsimp at hnr hnc ⊢ <;> omega

/-- Any generated move starts at the queried square and its destination
has the same colour (same parity of row + column) as that square. -/
theorem getValidMoves_parity {b : Board} {pos : Position} {m : Move}
    (h : m ∈ getValidMoves b pos) :
    m.fromPos = pos ∧
    (m.toPos.row.val + m.toPos.col.val) % 2 = (pos.row.val + pos.col.val) % 2 := by
  rcases hb : b pos with _ | piece
  · rw [getValidMoves, hb] at h
    exact absurd h (List.not_mem_nil m)
  · rw [getValidMoves, hb] at h
    simp only at h
    split at h
    · exact rawCaptures_parity h
    · exact rawMoves_parity h

/-- C8: applying any generator-produced move to a board whose occupied
squares all have odd row + column yields a board with the same property,
and the light squares of the initial board are empty (so they stay empty
under every such application). -/
theorem dark_squares_invariant :
    (∀ (b : Board) (m : Move),
      (∀ p : Position, b p ≠ none → (p.row.val + p.col.val) % 2 = 1) →
      ((∃ pos, m ∈ getValidMoves b pos) ∨ ∃ s, m ∈ getAllValidMoves b s) →
      ∀ p : Position, makeMove b m p ≠ none → (p.row.val + p.col.val) % 2 = 1) ∧
    (∀ p : Position, (p.row.val + p.col.val) % 2 = 0 → createInitialBoard p = none) := by
  constructor
  · intro b m hdark hmem p hp
    have hgv : ∃ pos, m ∈ getValidMoves b pos := by
      rcases hmem with h | ⟨s, h⟩
      · exact h
      · exact mem_allMovesRaw (getAllValidMoves_subset h)
    rcases hgv with ⟨pos, hgv⟩
    obtain ⟨hfrom, hpar⟩ := getValidMoves_parity hgv
    have hocc : b pos ≠ none := by
      intro hbn
      simp only [getValidMoves, hbn] at hgv
      exact absurd hgv (List.not_mem_nil m)
    have hposdark := hdark pos hocc
    unfold makeMove at hp
    rw [hfrom] at hp
    rcases hb2 : b pos with _ | piece
    · exact absurd hb2 hocc
    · simp only [hb2] at hp
      split at hp
      all_goals beta_reduce at hp
      · split_ifs at hp with h1 h2 h3
        · rw [h1]
          omega
        · exact absurd rfl hp
        · exact absurd rfl hp
        · exact hdark p hp
      · split_ifs at hp with h1 h2 h3
        · exact absurd rfl hp
        · exact absurd rfl hp
        · rw [h3]
          omega
        · exact hdark p hp
  · decide

/-- C8 witness: pushing black's man from (2, 1) to the dark square (3, 0)
on the initial board keeps the occupied-square parity at that square. -/
theorem dark_squares_invariant_w :
    (((⟨3, 0⟩ : Position).row.val + (⟨3, 0⟩ : Position).col.val) % 2 = 1) :=
  dark_squares_invariant.1 createInitialBoard ⟨⟨2, 1⟩, ⟨3, 0⟩, []⟩ (by decide)
    (Or.inl ⟨⟨2, 1⟩, by decide⟩) ⟨3, 0⟩ (by decide)

/-- A random pick from a nonempty list succeeds and picks a member. -/
theorem getRandomMove_mem {r : ℕ} {moves : List Move} (h : moves ≠ []) :
    ∃ m, getRandomMove r moves = some m ∧ m ∈ moves := by
  have hlen : 0 < moves.length := List.length_pos.mpr h
  have hlt : r % moves.length < moves.length := Nat.mod_lt r hlen
  unfold getRandomMove
  rw [List.get?_eq_get hlt]
  exact ⟨_, rfl, List.get_mem _ _ _⟩

/-- The basic tier picks from one of three sublists of the legal moves. -/
theorem getBasicMove_mem {rng : ℕ → ℕ} {moves : List Move} (h : moves ≠ []) :
    ∃ m, getBasicMove rng moves = some m ∧ m ∈ moves := by
  unfold getBasicMove
  dsimp only
  split
  · next hc =>
    have hlt : rng 0 % (moves.filter Move.isCapture).length <
        (moves.filter Move.isCapture).length := Nat.mod_lt _ hc
    rw [List.get?_eq_get hlt]
    exact ⟨_, rfl, List.mem_of_mem_filter (List.get_mem _ _ _)⟩
  · split
    · next hk =>
      have hlt : rng 1 % (moves.filter (fun m => m.toPos.row = (7 : Fin 8))).length <
          (moves.filter (fun m => m.toPos.row = (7 : Fin 8))).length := Nat.mod_lt _ hk
      rw [List.get?_eq_get hlt]
      exact ⟨_, rfl, List.mem_of_mem_filter (List.get_mem _ _ _)⟩
    · exact getRandomMove_mem h

/-- The intermediate tier picks the move component of one of the scored,
sorted pairs, and sorting permutes the scored list, so the pick is one of
the input moves. -/
theorem getIntermediateMove_mem {r : ℕ} {board : Board} {moves : List Move}
    (h : moves ≠ []) :
    ∃ m, getIntermediateMove r board moves = some m ∧ m ∈ moves := by
  unfold getIntermediateMove
  dsimp only
  have hperm : ((moves.map (fun move => (move, evaluateMove board move))).mergeSort
      (fun a b => b.2 ≤ a.2)).Perm (moves.map (fun move => (move, evaluateMove board move))) :=
    List.mergeSort_perm _ _
  have hlen : 0 < (((moves.map (fun move => (move, evaluateMove board move))).mergeSort
      (fun a b => b.2 ≤ a.2)).take
        (min 3 (moves.map (fun move => (move, evaluateMove board move))).length)).length := by
    rw [List.length_take, hperm.length_eq, List.length_map]
    have hm : 0 < moves.length := List.length_pos.mpr h
    omega
  have hlt : r % _ < _ := Nat.mod_lt r hlen
  rw [List.get?_eq_get hlt]
  refine ⟨_, rfl, ?_⟩
  have h2 := hperm.mem_iff.mp (List.mem_of_mem_take (List.get_mem _ _ hlt))
  rcases List.mem_map.mp h2 with ⟨mv, hmv, heq⟩
  rw [← heq]
  exact hmv

/-- The advanced tier's loop only ever returns its running best or a
member of the remaining list. -/
theorem advLoop_mem (board : Board) (depth : ℕ) (l : List Move) :
    ∀ (bm : Move) (bs : EInt),
      advLoop board depth l bm bs = bm ∨ advLoop board depth l bm bs ∈ l := by
  induction l with
  | nil => exact fun bm bs => Or.inl rfl
  | cons mv rest ih =>
    intro bm bs
    unfold advLoop
    dsimp only
    split
    · rcases ih mv _ with h2 | h2
      · rw [h2]
        exact Or.inr (List.mem_cons_self _ _)
      · exact Or.inr (List.mem_cons_of_mem _ h2)
    · rcases ih bm bs with h2 | h2
      · exact Or.inl h2
      · exact Or.inr (List.mem_cons_of_mem _ h2)

/-- The advanced tier returns a legal move whenever one exists. -/
theorem getAdvancedMove_mem {board : Board} {moves : List Move} {difficulty : ℤ}
    (h : moves ≠ []) :
    ∃ m, getAdvancedMove board moves difficulty = some m ∧ m ∈ moves := by
  rcases moves with _ | ⟨m0, rest⟩
  · exact absurd rfl h
  · refine ⟨_, rfl, ?_⟩
    rcases advLoop_mem board (if 1600 ≤ difficulty then 4 else 3) (m0 :: rest) m0 ⊥
      with h2 | h2
    · rw [h2]
      exact List.mem_cons_self _ _
    · exact h2

/-- C9: `getBotMove` returns the absent result exactly when black has no
legal move (it never signals an error — absence is the only failure
shape), and any returned move is one of black's legal moves, for every
board, rating and randomness source. -/
theorem getBotMove_total (rng : ℕ → ℕ) (board : Board) (difficulty : ℤ) :
    (getBotMove rng board difficulty = none ↔
      getAllValidMoves board Side.black = []) ∧
    (∀ m, getBotMove rng board difficulty = some m →
      m ∈ getAllValidMoves board Side.black) := by
  unfold getBotMove
  by_cases hemp : getAllValidMoves board Side.black = []
  · rw [if_pos (by rw [hemp]; rfl)]
    exact ⟨⟨fun _ => hemp, fun _ => rfl⟩, fun m hm => absurd hm (by simp)⟩
  · have hlen : ¬(getAllValidMoves board Side.black).length = 0 := fun h0 =>
      hemp (List.length_eq_zero.mp h0)
    rw [if_neg hlen]
    have hfin : ∀ res : Option Move,
        (∃ m, res = some m ∧ m ∈ getAllValidMoves board Side.black) →
        (res = none ↔ getAllValidMoves board Side.black = []) ∧
        (∀ m, res = some m → m ∈ getAllValidMoves board Side.black) := by
      rintro res ⟨m, hm, hmem⟩
      subst hm
      refine ⟨⟨fun h2 => absurd h2 (by simp), fun h2 => absurd h2 hemp⟩,
        fun m2 hm2 => ?_⟩
      injection hm2 with h2
      rw [h2] at hmem
      exact hmem
    split_ifs
    · exact hfin _ (getRandomMove_mem hemp)
    · exact hfin _ (getBasicMove_mem hemp)
    · exact hfin _ (getIntermediateMove_mem hemp)
    · exact hfin _ (getAdvancedMove_mem hemp)

/-- C9 witness: at rating 0 with a constant randomness source, the bot on
the initial board picks black's first legal move, and that move is legal. -/
theorem getBotMove_total_w :
    (⟨⟨2, 1⟩, ⟨3, 0⟩, []⟩ : Move) ∈ getAllValidMoves createInitialBoard Side.black :=
  (getBotMove_total (fun _ => 0) createInitialBoard 0).2 ⟨⟨2, 1⟩, ⟨3, 0⟩, []⟩
    (by decide)

/-- Fail-soft window specification: inside the window `(alpha, beta)` the
pruned result `r` equals the true value `v`; a result at or below `alpha`
bounds `v` from above; a result at or above `beta` bounds it from below. -/
abbrev approx (r v alpha beta : EInt) : Prop :=
  (r ≤ alpha → v ≤ r) ∧ (alpha < r → r < beta → r = v) ∧ (beta ≤ r → r ≤ v)

theorem approx_refl (r alpha beta : EInt) : approx r r alpha beta :=
  ⟨fun _ => le_refl r, fun _ _ => rfl, fun _ => le_refl r⟩

/-- The unpruned maximizing fold peels its accumulator off as a `max`. -/
theorem npMaxLoop_acc (ev : Board → EInt) (b : Board) (l : List Move) :
    ∀ M : EInt, npMaxLoop ev b l M = max M (npMaxLoop ev b l ⊥) := by
  induction l with
  | nil => intro M; rw [npMaxLoop, npMaxLoop, max_eq_left bot_le]
  | cons mv rest ih =>
    intro M
    rw [npMaxLoop, npMaxLoop, ih (max M (ev (makeMove b mv))),
      ih (max ⊥ (ev (makeMove b mv))), max_eq_right bot_le, max_assoc]

/-- The unpruned minimizing fold peels its accumulator off as a `min`. -/
theorem npMinLoop_acc (ev : Board → EInt) (b : Board) (l : List Move) :
    ∀ M : EInt, npMinLoop ev b l M = min M (npMinLoop ev b l ⊤) := by
  induction l with
  | nil => intro M; rw [npMinLoop, npMinLoop, min_eq_left le_top]
  | cons mv rest ih =>
    intro M
    rw [npMinLoop, npMinLoop, ih (min M (ev (makeMove b mv))),
      ih (min ⊤ (ev (makeMove b mv))), min_eq_right le_top, min_assoc]

/-- The unpruned maximizing fold dominates its accumulator. -/
theorem le_npMaxLoop (ev : Board → EInt) (b : Board) (l : List Move) :
    ∀ M : EInt, M ≤ npMaxLoop ev b l M := by
  induction l with
  | nil => intro M; rw [npMaxLoop]
  | cons mv rest ih =>
    intro M
    rw [npMaxLoop]
    exact le_trans (le_max_left _ _) (ih _)

/-- The unpruned minimizing fold is dominated by its accumulator. -/
theorem ge_npMinLoop (ev : Board → EInt) (b : Board) (l : List Move) :
    ∀ M : EInt, npMinLoop ev b l M ≤ M := by
  induction l with
  | nil => intro M; rw [npMinLoop]
  | cons mv rest ih =>
    intro M
    rw [npMinLoop]
    exact le_trans (ih _) (min_le_left _ _)

/-- The pruned maximizing loop dominates its accumulator. -/
theorem le_abMaxLoop (evA : Board → EInt → EInt → EInt) (b : Board) (beta : EInt)
    (l : List Move) : ∀ M A : EInt, M ≤ abMaxLoop evA b beta l M A := by
  induction l with
  | nil => intro M A; rw [abMaxLoop]
  | cons mv rest ih =>
    intro M A
    rw [abMaxLoop]
    split
    · exact le_max_left _ _
    · exact le_trans (le_max_left _ _) (ih _ _)

/-- The pruned minimizing loop is dominated by its accumulator. -/
theorem ge_abMinLoop (evA : Board → EInt → EInt → EInt) (b : Board) (alpha : EInt)
    (l : List Move) : ∀ M B : EInt, abMinLoop evA b alpha l M B ≤ M := by
  induction l with
  | nil => intro M B; rw [abMinLoop]
  | cons mv rest ih =>
    intro M B
    rw [abMinLoop]
    split
    · exact min_le_left _ _
    · exact le_trans (ih _ _) (min_le_left _ _)

/-- The maximizing alpha-beta loop meets the fail-soft specification
against the unpruned fold, given that the child evaluator does at every
valid window.  The loop state satisfies `M ≤ A` (the running best never
exceeds the running alpha) and `A < beta` (no cutoff yet). -/
theorem abMaxLoop_approx (evA : Board → EInt → EInt → EInt) (evT : Board → EInt)
    (b : Board) (beta : EInt)
    (hev : ∀ (b2 : Board) (a2 b3 : EInt), a2 < b3 →
      approx (evA b2 a2 b3) (evT b2) a2 b3)
    (l : List Move) :
    ∀ M A : EInt, M ≤ A → A < beta →
      approx (abMaxLoop evA b beta l M A) (npMaxLoop evT b l M) A beta := by
  induction l with
  | nil =>
    intro M A _ _
    exact approx_refl M A beta
  | cons mv rest ih =>
    intro M A hMA hAb
    rw [abMaxLoop, npMaxLoop]
    obtain ⟨hC1, hC2, hC3⟩ := hev (makeMove b mv) A beta hAb
    set s := evA (makeMove b mv) A beta with hs
    set vc := evT (makeMove b mv) with hvc
    split
    · next hprune =>
      have hbs : beta ≤ s := by
        rcases le_max_iff.mp hprune with h | h
        · exact absurd h (not_le.mpr hAb)
        · exact h
      have hsv : s ≤ vc := hC3 hbs
      have hMs : max M s = s := max_eq_right (hMA.trans (hAb.le.trans hbs))
      rw [hMs]
      refine ⟨?_, ?_, ?_⟩
      · intro hle
        exact absurd ((hbs.trans hle).trans_lt hAb) (lt_irrefl beta)
      · intro _ hlt
        exact absurd (hbs.trans_lt hlt) (lt_irrefl beta)
      · intro _
        exact hsv.trans ((le_max_right M vc).trans (le_npMaxLoop evT b rest _))
    · next hnoprune =>
      have hAs : max A s < beta := not_le.mp hnoprune
      obtain ⟨hG1, hG2, hG3⟩ := ih (max M s) (max A s) (max_le_max hMA (le_refl s)) hAs
      have hacc : ∀ N : EInt,
          npMaxLoop evT b rest N = max N (npMaxLoop evT b rest ⊥) :=
        npMaxLoop_acc evT b rest
      set K := npMaxLoop evT b rest ⊥ with hK
      rcases le_or_lt s A with hsA | hAs2
      -- fail low: the child result is an upper bound on its true value
      · have hvs : vc ≤ s := hC1 hsA
        have hAeq : max A s = A := max_eq_left hsA
        rw [hAeq] at hG1 hG2 hG3 ⊢
        refine ⟨?_, ?_, ?_⟩
        · intro hle
          have hWW : npMaxLoop evT b rest (max M vc) ≤ npMaxLoop evT b rest (max M s) := by
            rw [hacc (max M vc), hacc (max M s)]
            exact max_le_max (max_le_max (le_refl M) hvs) (le_refl K)
          exact hWW.trans (hG1 hle)
        · intro hlt1 hlt2
          have hRW := hG2 hlt1 hlt2
          have hsltW : s < npMaxLoop evT b rest (max M s) := by
            rw [← hRW]
            exact lt_of_le_of_lt hsA hlt1
          have hWs : npMaxLoop evT b rest (max M s) = max s (max M K) := by
            rw [hacc (max M s), max_comm M s, max_assoc]
          have hMK : npMaxLoop evT b rest (max M s) = max M K := by
            rcases max_choice s (max M K) with hch | hch
            · rw [hWs] at hsltW
              rw [hch] at hsltW
              exact absurd hsltW (lt_irrefl s)
            · rw [hWs, hch]
          have hW : npMaxLoop evT b rest (max M vc) = max M K := by
            have hvK : vc ≤ max M K := by
              have hsK : s ≤ max M K := by
                rw [← hMK]
                exact le_of_lt hsltW
              exact hvs.trans hsK
            rw [hacc (max M vc), max_comm M vc, max_assoc]
            exact max_eq_right hvK
          rw [hRW, hMK, hW]
        · intro hbR
          have hRW := hG3 hbR
          have hWs : npMaxLoop evT b rest (max M s) = max s (max M K) := by
            rw [hacc (max M s), max_comm M s, max_assoc]
          rw [hWs] at hRW
          rcases le_max_iff.mp hRW with h | h
          · exact absurd (lt_of_lt_of_le ((h.trans hsA).trans_lt hAb) hbR)
              (lt_irrefl _)
          · have hle2 : max M K ≤ npMaxLoop evT b rest (max M vc) := by
              rw [hacc (max M vc)]
              exact max_le_max (le_max_left M vc) (le_refl K)
            exact h.trans hle2
      -- in-window: the child result is exact
      · have hsb : s < beta := lt_of_le_of_lt (le_max_right A s) hAs
        have hsvc : s = vc := hC2 hAs2 hsb
        have hAeq : max A s = s := max_eq_right hAs2.le
        rw [hAeq] at hG1 hG2 hG3 ⊢
        rw [← hsvc]
        have hsR : s ≤ abMaxLoop evA b beta rest (max M s) s :=
          le_trans (le_max_right M s) (le_abMaxLoop evA b beta rest _ _)
        refine ⟨?_, ?_, ?_⟩
        · intro hle
          exact absurd (hAs2.trans_le (hsR.trans hle)) (lt_irrefl A)
        · intro _ hlt2
          rcases eq_or_lt_of_le hsR with heq | hlt
          · have hup : abMaxLoop evA b beta rest (max M s) s ≤
                npMaxLoop evT b rest (max M s) := by
              rw [← heq]
              exact (le_max_right M s).trans (le_npMaxLoop evT b rest _)
            exact le_antisymm hup (hG1 (le_of_eq heq.symm))
          · exact hG2 hlt hlt2
        · intro hbR
          exact hG3 hbR

/-- The minimizing alpha-beta loop meets the fail-soft specification
against the unpruned fold.  The loop state satisfies `B ≤ M` (the running
best never drops below the running beta) and `alpha < B` (no cutoff
yet). -/
theorem abMinLoop_approx (evA : Board → EInt → EInt → EInt) (evT : Board → EInt)
    (b : Board) (alpha : EInt)
    (hev : ∀ (b2 : Board) (a2 b3 : EInt), a2 < b3 →
      approx (evA b2 a2 b3) (evT b2) a2 b3)
    (l : List Move) :
    ∀ M B : EInt, B ≤ M → alpha < B →
      approx (abMinLoop evA b alpha l M B) (npMinLoop evT b l M) alpha B := by
  induction l with
  | nil =>
    intro M B _ _
    exact approx_refl M alpha B
  | cons mv rest ih =>
    intro M B hBM haB
    rw [abMinLoop, npMinLoop]
    obtain ⟨hC1, hC2, hC3⟩ := hev (makeMove b mv) alpha B haB
    set s := evA (makeMove b mv) alpha B with hs
    set vc := evT (makeMove b mv) with hvc
    split
    · next hprune =>
      have hsa : s ≤ alpha := by
        rcases min_le_iff.mp hprune with h | h
        · exact absurd h (not_le.mpr haB)
        · exact h
      have hvs : vc ≤ s := hC1 hsa
      have hMs : min M s = s := min_eq_right (hsa.trans (haB.le.trans hBM))
      rw [hMs]
      refine ⟨?_, ?_, ?_⟩
      · intro _
        exact ((ge_npMinLoop evT b rest _).trans (min_le_right M vc)).trans hvs
      · intro hlt _
        exact absurd (hlt.trans_le hsa) (lt_irrefl alpha)
      · intro hle
        exact absurd ((hle.trans hsa).trans_lt haB) (lt_irrefl B)
    · next hnoprune =>
      have hBs : alpha < min B s := not_le.mp hnoprune
      obtain ⟨hG1, hG2, hG3⟩ := ih (min M s) (min B s) (min_le_min hBM (le_refl s)) hBs
      have hacc : ∀ N : EInt,
          npMinLoop evT b rest N = min N (npMinLoop evT b rest ⊤) :=
        npMinLoop_acc evT b rest
      set K := npMinLoop evT b rest ⊤ with hK
      rcases le_or_lt B s with hBle | hsB
      -- fail high: the child result is a lower bound on its true value
      · have hsv : s ≤ vc := hC3 hBle
        have hBeq : min B s = B := min_eq_left hBle
        rw [hBeq] at hG1 hG2 hG3 ⊢
        refine ⟨?_, ?_, ?_⟩
        · intro hle
          have hRW := hG1 hle
          have hWs : npMinLoop evT b rest (min M s) = min s (min M K) := by
            rw [hacc (min M s), min_comm M s, min_assoc]
          rw [hWs] at hRW
          rcases min_choice s (min M K) with hch | hch
          · rw [hch] at hRW
            exact absurd ((haB.trans_le hBle).trans_le (hRW.trans hle))
              (lt_irrefl alpha)
          · rw [hch] at hRW
            have hWvc : npMinLoop evT b rest (min M vc) ≤ min M K := by
              rw [hacc (min M vc), min_comm M vc, min_assoc]
              exact min_le_right vc (min M K)
            exact hWvc.trans hRW
        · intro hlt1 hlt2
          have hRW := hG2 hlt1 hlt2
          have hWs : npMinLoop evT b rest (min M s) = min s (min M K) := by
            rw [hacc (min M s), min_comm M s, min_assoc]
          have hRs : abMinLoop evA b alpha rest (min M s) B < s :=
            lt_of_lt_of_le hlt2 hBle
          have hMK : npMinLoop evT b rest (min M s) = min M K := by
            rcases min_choice s (min M K) with hch | hch
            · rw [hWs, hch] at hRW
              rw [hRW] at hRs
              exact absurd hRs (lt_irrefl s)
            · rw [hWs, hch]
          have hW : npMinLoop evT b rest (min M vc) = min M K := by
            have hKs : min M K ≤ s := by
              rw [← hMK, ← hRW]
              exact le_of_lt hRs
            rw [hacc (min M vc), min_comm M vc, min_assoc]
            exact min_eq_right (hKs.trans hsv)
          rw [hRW, hMK, hW]
        · intro hbR
          have hRW := hG3 hbR
          have hWW : npMinLoop evT b rest (min M s) ≤ npMinLoop evT b rest (min M vc) := by
            rw [hacc (min M s), hacc (min M vc)]
            exact min_le_min (min_le_min (le_refl M) hsv) (le_refl K)
          exact hRW.trans hWW
      -- in-window: the child result is exact
      · have has : alpha < s := lt_of_lt_of_le hBs (min_le_right B s)
        have hsvc : s = vc := hC2 has hsB
        have hBeq : min B s = s := min_eq_right hsB.le
        rw [hBeq] at hG1 hG2 hG3 ⊢
        rw [← hsvc]
        have hRs : abMinLoop evA b alpha rest (min M s) s ≤ s :=
          le_trans (ge_abMinLoop evA b alpha rest _ _) (min_le_right M s)
        refine ⟨?_, ?_, ?_⟩
        · intro hle
          exact hG1 hle
        · intro hlt1 _
          rcases eq_or_lt_of_le hRs with heq | hlt
          · have hlo : npMinLoop evT b rest (min M s) ≤
                abMinLoop evA b alpha rest (min M s) s := by
              rw [heq]
              exact (ge_npMinLoop evT b rest _).trans (min_le_right M s)
            exact le_antisymm (hG3 (le_of_eq heq.symm)) hlo
          · exact hG2 hlt1 hlt
        · intro hbR
          exact absurd (lt_of_le_of_lt (hbR.trans hRs) hsB) (lt_irrefl B)

/-- The alpha-beta search meets the fail-soft specification against the
unpruned search at every valid window, by induction on depth. -/
theorem minimax_approx (depth : ℕ) :
    ∀ (b : Board) (alpha beta : EInt) (maxi : Bool), alpha < beta →
      approx (minimax b depth alpha beta maxi) (minimaxNoPrune b depth maxi)
        alpha beta := by
  induction depth with
  | zero =>
    intro b alpha beta maxi _
    rcases hw : checkWinner b with _ | s
    · simp only [minimax, minimaxNoPrune, hw]
      exact approx_refl _ _ _
    · cases s <;> simp only [minimax, minimaxNoPrune, hw] <;> exact approx_refl _ _ _
  | succ d ih =>
    intro b alpha beta maxi hab
    rcases hw : checkWinner b with _ | s
    · simp only [minimax, minimaxNoPrune, hw]
      cases maxi
      · simp only [Bool.false_eq_true, if_false]
        by_cases hz : (getAllValidMoves b Side.white).length = 0
        · rw [if_pos hz, if_pos hz]
          exact approx_refl _ _ _
        · rw [if_neg hz, if_neg hz]
          exact abMinLoop_approx _ _ b alpha
            (fun b2 a2 b3 h => ih b2 a2 b3 true h) _ ⊤ beta le_top hab
      · simp only [eq_self_iff_true, if_true]
        by_cases hz : (getAllValidMoves b Side.black).length = 0
        · rw [if_pos hz, if_pos hz]
          exact approx_refl _ _ _
        · rw [if_neg hz, if_neg hz]
          exact abMaxLoop_approx _ _ b beta
            (fun b2 a2 b3 h => ih b2 a2 b3 false h) _ ⊥ alpha bot_le hab
    · cases s <;> simp only [minimax, minimaxNoPrune, hw] <;> exact approx_refl _ _ _

/-- C2: called on the full window `(-Infinity, +Infinity)`, the alpha-beta
`minimax` returns exactly the score of the exhaustive minimax without
pruning, over the same move generator, applicator, terminal check and leaf
evaluation, at every board, depth and maximizing flag. -/
theorem minimax_eq_noPrune (b : Board) (depth : ℕ) (maxi : Bool) :
    minimax b depth ⊥ ⊤ maxi = minimaxNoPrune b depth maxi := by
  obtain ⟨h1, h2, h3⟩ := minimax_approx depth b ⊥ ⊤ maxi bot_lt_top
  rcases le_or_lt (minimax b depth ⊥ ⊤ maxi) ⊥ with hle | hlt
  · have hr : minimax b depth ⊥ ⊤ maxi = ⊥ := le_bot_iff.mp hle
    have hv : minimaxNoPrune b depth maxi = ⊥ := le_bot_iff.mp (hr ▸ h1 hle)
    rw [hr, hv]
  · rcases lt_or_le (minimax b depth ⊥ ⊤ maxi) ⊤ with hlt2 | hge
    · exact h2 hlt hlt2
    · have hr : minimax b depth ⊥ ⊤ maxi = ⊤ := top_le_iff.mp hge
      have hv : minimaxNoPrune b depth maxi = ⊤ := top_le_iff.mp (hr ▸ h3 hge)
      rw [hr, hv]
